import Mathlib

/-!
Shallow embedding of the synchronization-estimation pipeline of
`src/main.py` (vid_sync), together with theorems checking the
natural-language specification against it.

Conventions of the embedding:
* floating-point sample values become exact rationals (`ℚ`);
* numpy arrays become `List ℚ`;
* library primitives are embedded by their mathematical contract:
  `np.argmax` is the first index attaining the maximum, `np.mean` is
  sum divided by length, `scipy.signal.correlate(·, ·, "valid")` is a
  sliding dot product, `np.finfo(float).eps` is `2⁻⁵²`;
* the floating-point square root used by `np.sqrt` / `np.linalg.norm`
  is abstracted: either as a parameter `rt : ℚ → ℚ` (with the single
  assumption actually used stated in each theorem), or by `qSqrt`,
  which is exact on perfect-square rationals — the only arguments at
  which the concrete theorems below evaluate it.
-/

namespace VidSync

/-- Dot product of two rational lists (`np.dot`-style; trailing elements
of the longer list are ignored, matching the uses below where lengths
agree). -/
def dot (a b : List ℚ) : ℚ :=
  (List.zipWith (fun x y => x * y) a b).sum

/-- First-occurrence argmax with its value: `argmaxAux l = (i, m)` where
`m` is the maximum of `l` and `i` the first index attaining it.  Embeds
`np.argmax`, which documents that ties return the first occurrence.
For the empty list (never hit by the source) it returns `(0, 0)`. -/
def argmaxAux : List ℚ → ℕ × ℚ
  | [] => (0, 0)
  | [x] => (0, x)
  | x :: y :: t =>
    let p := argmaxAux (y :: t)
    if p.2 ≤ x then (0, x) else (p.1 + 1, p.2)

/-- First index of the maximum of a list (`np.argmax`). -/
def listArgmax (l : List ℚ) : ℕ :=
  (argmaxAux l).1

/-- Python `int()` applied to a float: truncation toward zero. -/
def pyInt (q : ℚ) : ℤ :=
  if q < 0 then ⌈q⌉ else ⌊q⌋

/-- Exact square root of a rational: for a nonnegative rational whose
numerator and denominator are perfect squares it returns the true
square root, otherwise `0`.  It models the floating-point square root
of `np.sqrt` / `np.linalg.norm`; every concrete evaluation in the
theorems below happens at a perfect square (or at `0`), where this
model coincides with the real square root. -/
def qSqrt (q : ℚ) : ℚ :=
  if 0 ≤ q.num ∧ q.num.toNat.sqrt * q.num.toNat.sqrt = q.num.toNat ∧
      q.den.sqrt * q.den.sqrt = q.den then
    (q.num.toNat.sqrt : ℚ) / (q.den.sqrt : ℚ)
  else 0

/-- Embedding of `parabolic_interpolation` (src/main.py lines 123-128):
fit a parabola through `c[idx-1], c[idx], c[idx+1]` and return the
fractional shift of the peak; boundary indices return `0.0`.
`idx : ℕ`, so the Python guard `idx <= 0` becomes `idx = 0`; rational
division is total, and every interior use in the pipeline has a
nonzero denominator (the centre is a strict first maximum). -/
def parabolicInterpolation (c : List ℚ) (idx : ℕ) : ℚ :=
  if idx = 0 ∨ c.length - 1 ≤ idx then 0
  else
    let α := c.getD (idx - 1) 0
    let β := c.getD idx 0
    let γ := c.getD (idx + 1) 0
    (1 / 2) * (α - γ) / (α - 2 * β + γ)

/-- Python slice `l[-k:]` for `k : ℕ`: the last `k` elements, except
that `l[-0:]` is the whole list (`-0 = 0` in Python, so the slice
starts at the beginning).  This pitfall is load-bearing for the
`max_tau` claim below. -/
def pySliceLast (l : List ℚ) (k : ℕ) : List ℚ :=
  if k = 0 then l else l.drop (l.length - k)

/-- The truncation width `max_shift` of `gcc_phat`
(src/main.py lines 145-147): `interp * n // 2`, capped by
`int(interp * max_tau * sr)` when `max_tau` is given.  Faithful for
`maxTau ≥ 0` (a negative maximum lag is meaningless and unused). -/
def gccMaxShift (n interp : ℕ) (sr : ℚ) (maxTau : Option ℚ) : ℕ :=
  match maxTau with
  | none => interp * n / 2
  | some mt => min (pyInt ((interp : ℚ) * mt * sr)).toNat (interp * n / 2)

/-- The centred correlation curve of `gcc_phat` (line 148):
`np.concatenate((cc[-max_shift:], cc[:max_shift + 1]))`. -/
def gccCentered (cc : List ℚ) (ms : ℕ) : List ℚ :=
  pySliceLast cc ms ++ cc.take (ms + 1)

/-- The peak-picking and conversion stage of `gcc_phat`
(src/main.py lines 144-150), taking the raw (uncentred) correlation
curve `cc` as input: centre/truncate, take the first argmax of the
absolute value, subtract `max_shift`, and divide by `interp * sr`. -/
def gccPhatCore (cc : List ℚ) (n interp : ℕ) (sr : ℚ) (maxTau : Option ℚ) : ℚ :=
  let ms := gccMaxShift n interp sr maxTau
  let centered := gccCentered cc ms
  (((listArgmax (centered.map (fun q => |q|)) : ℤ) - (ms : ℤ) : ℤ) : ℚ) / ((interp : ℚ) * sr)

/-- Complex numbers with rational parts, used for the exact size-4
discrete Fourier transform. -/
structure CQ where
  re : ℚ
  im : ℚ

/-- Complex multiplication on `CQ`. -/
def CQ.mul (a b : CQ) : CQ :=
  ⟨a.re * b.re - a.im * b.im, a.re * b.im + a.im * b.re⟩

/-- Complex conjugation on `CQ`. -/
def CQ.conj (a : CQ) : CQ :=
  ⟨a.re, -a.im⟩

/-- Squared absolute value on `CQ`. -/
def CQ.normSq (a : CQ) : ℚ :=
  a.re * a.re + a.im * a.im

/-- Scalar multiplication on `CQ`. -/
def CQ.scale (k : ℚ) (a : CQ) : CQ :=
  ⟨k * a.re, k * a.im⟩

/-- Machine epsilon `np.finfo(float).eps = 2⁻⁵²` (line 142). -/
def machineEps : ℚ :=
  1 / 2 ^ 52

/-- The real FFT `scipy.fft.rfft(x, n=4)`: zero-pad `x` to length 4 and
return the three nonnegative-frequency DFT bins
`X_k = Σ_j x_j · (-i)^(j·k)`.  The fourth roots of unity are exact in
`ℚ(i)`, so this size (the one used by the concrete theorems below) is
embedded exactly. -/
def rfft4 (x : List ℚ) : List CQ :=
  let a0 := x.getD 0 0
  let a1 := x.getD 1 0
  let a2 := x.getD 2 0
  let a3 := x.getD 3 0
  [⟨a0 + a1 + a2 + a3, 0⟩, ⟨a0 - a2, a3 - a1⟩, ⟨a0 - a1 + a2 - a3, 0⟩]

/-- The inverse real FFT `scipy.fft.irfft(R, n=4)` of three bins
`[R₀, R₁, R₂]` (with `R₀, R₂` real, as always holds for a cross-power
spectrum of real signals): `cc_t = (R₀ + 2·Re(R₁·iᵗ) + R₂·(-1)ᵗ) / 4`. -/
def irfft4 (R : List CQ) : List ℚ :=
  let r0 := (R.getD 0 ⟨0, 0⟩).re
  let z := R.getD 1 ⟨0, 0⟩
  let r2 := (R.getD 2 ⟨0, 0⟩).re
  [(r0 + 2 * z.re + r2) / 4, (r0 - 2 * z.im - r2) / 4,
   (r0 - 2 * z.re + r2) / 4, (r0 + 2 * z.im - r2) / 4]

/-- Embedding of `gcc_phat` (src/main.py lines 131-150) specialised to
total length `x.size + y.size = 4` and `interp = 1`, the configuration
used by the concrete theorems below (the size-4 DFT is exact over
rational complex numbers; larger sizes need irrational roots of
unity).  `rt` abstracts the floating-point square root through which
`np.abs` of a complex bin is computed from its squared modulus:
`R /= np.abs(R) + np.finfo(float).eps`, then
`cc = irfft(R, n=interp*n)` and the peak-picking stage. -/
def gccPhat4 (rt : ℚ → ℚ) (x y : List ℚ) (sr : ℚ) (maxTau : Option ℚ) : ℚ :=
  let n := x.length + y.length
  let R := List.zipWith (fun X Y => CQ.mul X (CQ.conj Y)) (rfft4 x) (rfft4 y)
  let Rn := R.map (fun z => CQ.scale (1 / (rt z.normSq + machineEps)) z)
  gccPhatCore (irfft4 Rn) n 1 sr maxTau

/-- The segment length of `find_sync_offset` (line 177):
`seg_len = len(tpl_bp_full) // n_segments`. -/
def segLen (L n : ℕ) : ℕ :=
  L / n

/-- The template partition of `find_sync_offset` (lines 177-181):
segment `i` is `tpl[i*seg_len : (i+1)*seg_len]` for `i < n_segments`. -/
def templateSegments (tpl : List ℚ) (n : ℕ) : List (List ℚ) :=
  (List.range n).map (fun i => ((tpl.drop (i * segLen tpl.length n)).take (segLen tpl.length n)))

/-- Valid-mode cross-correlation `scipy.signal.correlate(o_s, o_t,
mode="valid")` (line 188) for `o_s` at least as long as `o_t`:
`corr[k] = Σ_j o_s[k+j] * o_t[j]` for `0 ≤ k ≤ len(o_s) - len(o_t)`. -/
def corrValid (os ot : List ℚ) : List ℚ :=
  (List.range (os.length - ot.length + 1)).map
    (fun k => dot ((os.drop k).take ot.length) ot)

/-- The sliding sums of squares under the square root of `Es`
(line 191): `np.convolve(o_s**2, np.ones_like(o_t), mode="valid")`,
entry `k` being `Σ_j o_s[k+j]²`. -/
def esSqList (os ot : List ℚ) : List ℚ :=
  (List.range (os.length - ot.length + 1)).map
    (fun k => dot ((os.drop k).take ot.length) ((os.drop k).take ot.length))

/-- The normalised cross-correlation curve of `find_sync_offset`
(lines 188-192): `ncc = corr / (Et * Es + 1e-8)` with
`Et = np.linalg.norm(o_t)` and `Es = np.sqrt(...)`; `rt` abstracts the
floating-point square root. -/
def nccCurve (rt : ℚ → ℚ) (os ot : List ℚ) : List ℚ :=
  let et := rt (dot ot ot)
  List.zipWith (fun c esq => c / (et * rt esq + 1 / 10 ^ 8)) (corrValid os ot) (esSqList os ot)

/-- The winning envelope-domain index (line 194): `np.argmax(ncc)`. -/
def nccIdx (c : List ℚ) : ℕ :=
  listArgmax c

/-- The envelope-path candidate offset computed from an NCC curve `c`
(lines 194-196): `ncc_off = (idx + frac) / sr` with
`frac = parabolic_interpolation(ncc, idx)`.  Note the source divides
the envelope-domain index by the sample rate directly, without the
onset-envelope frame hop. -/
def nccOffOf (c : List ℚ) (sr : ℚ) : ℚ :=
  ((nccIdx c : ℚ) + parabolicInterpolation c (nccIdx c)) / sr

/-- The peak score (line 197): `score = ncc[idx]`. -/
def nccScore (c : List ℚ) : ℚ :=
  c.getD (nccIdx c) 0

/-- The conversion the specification prescribes for an envelope-domain
index: `(idx + frac) * hop / sr`, the onset-envelope frame hop being
`hop` samples (librosa's default is 512).  Stated from the spec for
comparison with `nccOffOf`; it does not appear in the source. -/
def nccOffSpecHop (c : List ℚ) (hop sr : ℚ) : ℚ :=
  ((nccIdx c : ℚ) + parabolicInterpolation c (nccIdx c)) * hop / sr

/-- The per-segment fusion (line 200):
`ncc_off if score >= onset_ncc_thresh else tau`. -/
def fusedOffset (nccOff tau score thresh : ℚ) : ℚ :=
  if thresh ≤ score then nccOff else tau

/-- Arithmetic mean `np.mean` of a list of rationals. -/
def mean (l : List ℚ) : ℚ :=
  l.sum / l.length

/-- The fused per-segment estimates of `find_sync_offset`
(lines 180-200), given per segment the triple
(envelope offset, phase offset, envelope score). -/
def segmentEstimates (thresh : ℚ) (segs : List (ℚ × ℚ × ℚ)) : List ℚ :=
  segs.map (fun t => fusedOffset t.1 t.2.1 t.2.2 thresh)

/-- The averaged offset of `find_sync_offset` (line 203):
`float(np.mean(offsets))`. -/
def avgOffset (thresh : ℚ) (segs : List (ℚ × ℚ × ℚ)) : ℚ :=
  mean (segmentEstimates thresh segs)

/-- Embedding of `calc_similar_start` (src/main.py lines 111-113). -/
def calc_similar_start (start1 start2 offset_sec : ℚ) : ℚ :=
  start2 + offset_sec - start1

/-- The final aggregation of `__main__` (lines 260-261): the mean of
the per-window offsets and the absolute alignment point
`synced_time = start2 + offset - start1`. -/
def syncedTime (start1 start2 : ℚ) (windowOffsets : List ℚ) : ℚ :=
  start2 + mean windowOffsets - start1

/-! ### Lemmas about the first-occurrence argmax -/

theorem argmaxAux_fst_lt : ∀ (l : List ℚ), l ≠ [] → (argmaxAux l).1 < l.length
  | [], h => absurd rfl h
  | [x], _ => by simp [argmaxAux]
  | x :: y :: t, _ => by
    have ih := argmaxAux_fst_lt (y :: t) (by simp)
    simp only [argmaxAux]
    split
    · simp
    · simpa using Nat.succ_lt_succ ih

theorem argmaxAux_getD : ∀ (l : List ℚ), l ≠ [] →
    l.getD (argmaxAux l).1 0 = (argmaxAux l).2
  | [], h => absurd rfl h
  | [x], _ => by simp [argmaxAux]
  | x :: y :: t, _ => by
    have ih := argmaxAux_getD (y :: t) (by simp)
    simp only [argmaxAux]
    split
    · simp
    · simpa using ih

theorem argmaxAux_le : ∀ (l : List ℚ), ∀ j < l.length, l.getD j 0 ≤ (argmaxAux l).2
  | [], j, hj => by simp at hj
  | [x], j, hj => by
    match j, hj with
    | 0, _ => simp [argmaxAux]
  | x :: y :: t, j, hj => by
    simp only [argmaxAux]
    by_cases hle : (argmaxAux (y :: t)).2 ≤ x
    · rw [if_pos hle]
      match j, hj with
      | 0, _ => simp
      | j + 1, hj =>
        have ih := argmaxAux_le (y :: t) j (by simpa using hj)
        simp only [List.getD_cons_succ]
        exact le_trans ih hle
    · rw [if_neg hle]
      match j, hj with
      | 0, _ =>
        simpa using le_of_lt (lt_of_not_le hle)
      | j + 1, hj =>
        simpa using argmaxAux_le (y :: t) j (by simpa using hj)

theorem argmaxAux_lt_of_lt : ∀ (l : List ℚ), ∀ j < (argmaxAux l).1,
    l.getD j 0 < (argmaxAux l).2
  | [], j, hj => by simp [argmaxAux] at hj
  | [x], j, hj => by simp [argmaxAux] at hj
  | x :: y :: t, j, hj => by
    simp only [argmaxAux] at hj ⊢
    by_cases hle : (argmaxAux (y :: t)).2 ≤ x
    · rw [if_pos hle] at hj
      simp at hj
    · rw [if_neg hle] at hj ⊢
      simp only at hj
      match j, hj with
      | 0, _ => simpa using lt_of_not_le hle
      | j + 1, hj =>
        simpa using argmaxAux_lt_of_lt (y :: t) j (by omega)

theorem argmaxAux_map_mul (k : ℚ) (hk : 0 < k) : ∀ (l : List ℚ),
    argmaxAux (l.map (fun q => k * q)) = ((argmaxAux l).1, k * (argmaxAux l).2)
  | [] => by simp [argmaxAux]
  | [x] => by simp [argmaxAux]
  | x :: y :: t => by
    have ih := argmaxAux_map_mul k hk (y :: t)
    simp only [List.map_cons] at ih ⊢
    rw [argmaxAux, argmaxAux, ih]
    by_cases h : (argmaxAux (y :: t)).2 ≤ x
    · rw [if_pos (by exact mul_le_mul_of_nonneg_left h (le_of_lt hk)),
        if_pos h]
    · rw [if_neg (fun hc => h ((mul_le_mul_left hk).mp hc)), if_neg h]

theorem listArgmax_map_mul (k : ℚ) (hk : 0 < k) (l : List ℚ) :
    listArgmax (l.map (fun q => k * q)) = listArgmax l := by
  simp [listArgmax, argmaxAux_map_mul k hk l]

theorem getD_map_abs (l : List ℚ) (j : ℕ) (hj : j < l.length) :
    (l.map (fun q => |q|)).getD j 0 = |l.getD j 0| := by
  rw [List.getD_eq_getElem l 0 hj,
    List.getD_eq_getElem (l.map (fun q => |q|)) 0 (by simpa using hj)]
  simp

/-! ### Lemmas about the template partition -/

theorem flatten_range_slices (l : List ℚ) (s : ℕ) : ∀ (m : ℕ), m * s ≤ l.length →
    ((List.range m).map (fun i => (l.drop (i * s)).take s)).flatten = l.take (m * s) := by
  intro m
  induction m with
  | zero => simp
  | succ m ih =>
    intro hm
    have hms : m * s ≤ l.length := le_trans (by nlinarith) hm
    rw [List.range_succ, List.map_append, List.flatten_append, ih hms]
    simp only [List.map_cons, List.map_nil, List.flatten_cons, List.flatten_nil,
      List.append_nil]
    have : (m + 1) * s = m * s + s := by ring
    rw [this, List.take_add]

/-- Claim C10: for `1 ≤ n ≤ L`, the partition in `find_sync_offset`
(lines 177-181) produces exactly `n` segments of exactly `⌊L/n⌋`
samples each, whose concatenation is the first `n·⌊L/n⌋` samples of the
template; the trailing `L mod n` samples belong to no segment. -/
theorem templateSegments_partition (tpl : List ℚ) (n : ℕ)
    (_h1 : 1 ≤ n) (_h2 : n ≤ tpl.length) :
    (templateSegments tpl n).length = n ∧
    (∀ s ∈ templateSegments tpl n, s.length = tpl.length / n) ∧
    (templateSegments tpl n).flatten = tpl.take (n * (tpl.length / n)) ∧
    n * (tpl.length / n) = tpl.length - tpl.length % n := by
  have hns : n * (tpl.length / n) ≤ tpl.length := by
    have := Nat.div_mul_le_self tpl.length n
    nlinarith [this]
  refine ⟨by simp [templateSegments], ?_, ?_, ?_⟩
  · intro s hs
    simp only [templateSegments, List.mem_map, List.mem_range] at hs
    obtain ⟨i, hi, rfl⟩ := hs
    simp only [List.length_take, List.length_drop, segLen]
    have h3 : (i + 1) * (tpl.length / n) ≤ n * (tpl.length / n) :=
      mul_le_mul_right' hi (tpl.length / n)
    have h4 : (i + 1) * (tpl.length / n) =
        i * (tpl.length / n) + tpl.length / n := by ring
    omega
  · have := flatten_range_slices tpl (segLen tpl.length n) n (by
      simpa [segLen, Nat.mul_comm] using hns)
    simpa [templateSegments, segLen, Nat.mul_comm] using this
  · have := Nat.div_add_mod tpl.length n
    omega

/-- Witness for `templateSegments_partition` at a concrete input. -/
theorem templateSegments_partition_witness :
    (templateSegments [1, 2, 3, 4, 5] 2).length = 2 ∧
    (∀ s ∈ templateSegments [1, 2, 3, 4, 5] 2, s.length = 5 / 2) ∧
    (templateSegments [1, 2, 3, 4, 5] 2).flatten =
      List.take (2 * (5 / 2)) [1, 2, 3, 4, 5] ∧
    2 * (5 / 2) = 5 - 5 % 2 := by
  have h := templateSegments_partition [1, 2, 3, 4, 5] 2 (by norm_num) (by simp)
  simpa using h

/-- Counterexample to claim C2 as stated: requesting more segments than
template samples does not fail — no `ConfigurationError` (or any other
guard) exists in `find_sync_offset` — and the partition proceeds,
producing `n` zero-length segments.  Here a 5-sample template split
into 10 segments yields 10 empty segments. -/
theorem templateSegments_no_guard_cex :
    templateSegments [1, 2, 3, 4, 5] 10 = List.replicate 10 ([] : List ℚ) ∧
    segLen 5 10 = 0 := by
  constructor
  · decide
  · decide

/-- Claim C2 as amended: when the segment count exceeds the number of
template samples, `find_sync_offset` computes `seg_len = ⌊L/n⌋ = 0`
and proceeds with `n` zero-length segments; no configuration error is
raised. -/
theorem templateSegments_degenerate (tpl : List ℚ) (n : ℕ)
    (h : tpl.length < n) :
    segLen tpl.length n = 0 ∧
    (templateSegments tpl n).length = n ∧
    ∀ s ∈ templateSegments tpl n, s = [] := by
  have hz : segLen tpl.length n = 0 := Nat.div_eq_of_lt h
  refine ⟨hz, by simp [templateSegments], ?_⟩
  intro s hs
  simp only [templateSegments, hz, List.mem_map, List.mem_range] at hs
  obtain ⟨i, _, rfl⟩ := hs
  simp

/-- Witness for `templateSegments_degenerate` at a concrete input. -/
theorem templateSegments_degenerate_witness :
    segLen (List.length [(1 : ℚ), 2, 3]) 7 = 0 ∧
    (templateSegments [(1 : ℚ), 2, 3] 7).length = 7 ∧
    ∀ s ∈ templateSegments [(1 : ℚ), 2, 3] 7, s = [] :=
  templateSegments_degenerate [1, 2, 3] 7 (by simp)

/-- Claim C3: the global result is the exact arithmetic mean of the
per-window lags (`np.mean`, line 260) — in particular windows yielding
`[1.0, 1.2, 0.8]` average to exactly `1.0` — and the reported absolute
alignment point (line 261) is `start2 + mean - start1`, agreeing with
`calc_similar_start`. -/
theorem global_mean_alignment :
    mean [1, 6 / 5, 4 / 5] = 1 ∧
    (∀ start1 start2 : ℚ, ∀ offs : List ℚ,
      syncedTime start1 start2 offs =
        calc_similar_start start1 start2 (mean offs)) ∧
    (∀ x : ℚ, ∀ offs : List ℚ,
      mean (x :: offs) * ((x :: offs).length : ℚ) = (x :: offs).sum) := by
  refine ⟨by norm_num [mean], ?_, ?_⟩
  · intro start1 start2 offs
    simp [syncedTime, calc_similar_start]
  · intro x offs
    have hne : (((x :: offs).length : ℚ)) ≠ 0 :=
      Nat.cast_ne_zero.mpr (by simp)
    simpa [mean] using div_mul_cancel₀ (x :: offs).sum hne

/-- Claim C4: per segment the fused estimate is the envelope-based lag
exactly when the envelope NCC peak score reaches the threshold and the
phase-based lag otherwise (line 200); when every segment's score is
below the threshold, the averaged result equals the mean of the
GCC-PHAT lags alone. -/
theorem fusion_policy (nccOff tau score thresh : ℚ)
    (segs : List (ℚ × ℚ × ℚ))
    (hall : ∀ t ∈ segs, t.2.2 < thresh) :
    (thresh ≤ score → fusedOffset nccOff tau score thresh = nccOff) ∧
    (score < thresh → fusedOffset nccOff tau score thresh = tau) ∧
    avgOffset thresh segs = mean (segs.map (fun t => t.2.1)) := by
  refine ⟨fun h => if_pos h, fun h => if_neg (not_le.mpr h), ?_⟩
  unfold avgOffset segmentEstimates
  congr 1
  apply List.map_congr_left
  intro t ht
  exact if_neg (not_le.mpr (hall t ht))

/-- Witness for `fusion_policy` at concrete inputs. -/
theorem fusion_policy_witness :
    ((7 : ℚ) / 10 ≤ 1 / 2 → fusedOffset 1 2 (1 / 2) (7 / 10) = 1) ∧
    ((1 : ℚ) / 2 < 7 / 10 → fusedOffset 1 2 (1 / 2) (7 / 10) = 2) ∧
    avgOffset (7 / 10) [(1, 2, 1 / 2), (3, 4, 0)] =
      mean ([(1, 2, 1 / 2), (3, 4, 0)].map (fun t : ℚ × ℚ × ℚ => t.2.1)) :=
  fusion_policy 1 2 (1 / 2) (7 / 10) [(1, 2, 1 / 2), (3, 4, 0)] (by
    intro t ht
    simp only [List.mem_cons, List.mem_singleton] at ht
    rcases ht with rfl | rfl | h
    · norm_num
    · norm_num
    · simp at h)

/-- Claim C1 (code bug): the envelope correlation path converts the
winning envelope-domain index to seconds by dividing by the sample
rate alone (`ncc_off = (idx + frac) / sr`, line 196), omitting the
onset-envelope frame hop.  On a curve with winning index 2 and zero
parabolic refinement at `sr = 16000` the code yields `1/8000` s,
whereas the hop-aware conversion the specification prescribes (hop =
512 samples, librosa's default for `onset_strength`) yields `8/125` s:
the two differ by the factor `hop = 512`. -/
theorem nccOff_drops_hop_cex :
    nccOffOf [0, 1, 5, 1, 0] 16000 = 1 / 8000 ∧
    nccOffSpecHop [0, 1, 5, 1, 0] 512 16000 = 8 / 125 ∧
    ((1 : ℚ) / 8000) ≠ 8 / 125 := by
  refine ⟨?_, ?_, by norm_num⟩
  · norm_num [nccOffOf, nccIdx, listArgmax, argmaxAux, parabolicInterpolation]
  · norm_num [nccOffSpecHop, nccIdx, listArgmax, argmaxAux, parabolicInterpolation]

/-! ### Totality of the epsilon-guarded normalisation -/

theorem dot_eq_zero_right : ∀ (a b : List ℚ), (∀ x ∈ b, x = 0) → dot a b = 0
  | [], _, _ => by simp [dot]
  | _ :: _, [], _ => by simp [dot]
  | x :: a, y :: b, hb => by
    have h0 : y = 0 := hb y (by simp)
    have ih := dot_eq_zero_right a b (fun z hz => hb z (by simp [hz]))
    simp only [dot, List.zipWith_cons_cons, List.sum_cons] at ih ⊢
    simp [h0, ih]

theorem corrValid_eq_zero (os ot : List ℚ) (hot : ∀ x ∈ ot, x = 0) :
    ∀ v ∈ corrValid os ot, v = 0 := by
  intro v hv
  simp only [corrValid, List.mem_map, List.mem_range] at hv
  obtain ⟨k, _, rfl⟩ := hv
  exact dot_eq_zero_right _ ot hot

theorem zipWith_eq_zero (f : ℚ → ℚ → ℚ) :
    ∀ (a b : List ℚ), (∀ x ∈ a, ∀ y : ℚ, f x y = 0) →
      ∀ v ∈ List.zipWith f a b, v = 0
  | [], _, _ => by simp
  | _ :: _, [], _ => by simp
  | x :: a, y :: b, ha => by
    intro v hv
    simp only [List.zipWith_cons_cons, List.mem_cons] at hv
    rcases hv with rfl | hv
    · exact ha x (by simp) y
    · exact zipWith_eq_zero f a b (fun z hz w => ha z (by simp [hz]) w) v hv

/-- Claim C7: the epsilon-guarded NCC normalisation (lines 188-192) is
total — its denominator `Et * Es + 1e-8` is strictly positive at every
lag for any square root returning nonnegative values — and a
zero-energy (all-zero) template envelope yields an identically zero
NCC curve, hence a peak score of exactly 0 (a defined, minimal
confidence, absorbed by the phase fallback) rather than a numerical
fault; and `parabolic_interpolation` (lines 123-128) returns exactly
`0.0` whenever the peak index is 0 or at (or past) the last index. -/
theorem ncc_epsilon_guard_total (rt : ℚ → ℚ) (os ot : List ℚ)
    (hrtn : ∀ q, 0 ≤ rt q) (hot : ∀ x ∈ ot, x = 0) :
    (∀ k : ℕ,
      0 < rt (dot ot ot) * rt ((esSqList os ot).getD k 0) + 1 / 10 ^ 8) ∧
    (∀ v ∈ nccCurve rt os ot, v = 0) ∧
    nccScore (nccCurve rt os ot) = 0 ∧
    (∀ c : List ℚ, ∀ idx : ℕ, (idx = 0 ∨ c.length - 1 ≤ idx) →
      parabolicInterpolation c idx = 0) := by
  have hzero : ∀ v ∈ nccCurve rt os ot, v = 0 := by
    unfold nccCurve
    intro v hv
    refine zipWith_eq_zero _ _ _ ?_ v hv
    intro x hx y
    rw [corrValid_eq_zero os ot hot x hx]
    exact zero_div _
  refine ⟨?_, hzero, ?_, ?_⟩
  · intro k
    have h1 : 0 ≤ rt (dot ot ot) * rt ((esSqList os ot).getD k 0) :=
      mul_nonneg (hrtn _) (hrtn _)
    linarith
  · unfold nccScore
    by_cases hlt : nccIdx (nccCurve rt os ot) < (nccCurve rt os ot).length
    · rw [List.getD_eq_getElem _ 0 hlt]
      exact hzero _ (List.getElem_mem hlt)
    · exact List.getD_eq_default _ 0 (le_of_not_lt hlt)
  · intro c idx h
    rw [parabolicInterpolation.eq_def, if_pos h]

/-- Witness for `ncc_epsilon_guard_total`: the all-zero envelopes
`o_s = [0,0,0]`, `o_t = [0,0]` with the zero square-root model. -/
theorem ncc_epsilon_guard_total_witness :
    (∀ k : ℕ,
      0 < (fun _ : ℚ => (0 : ℚ)) (dot [0, 0] [0, 0]) *
        (fun _ : ℚ => (0 : ℚ)) ((esSqList [0, 0, 0] [0, 0]).getD k 0) +
        1 / 10 ^ 8) ∧
    (∀ v ∈ nccCurve (fun _ : ℚ => (0 : ℚ)) [0, 0, 0] [0, 0], v = 0) ∧
    nccScore (nccCurve (fun _ : ℚ => (0 : ℚ)) [0, 0, 0] [0, 0]) = 0 ∧
    (∀ c : List ℚ, ∀ idx : ℕ, (idx = 0 ∨ c.length - 1 ≤ idx) →
      parabolicInterpolation c idx = 0) :=
  ncc_epsilon_guard_total (fun _ => 0) [0, 0, 0] [0, 0]
    (fun _ => le_refl 0) (by intro x hx; simpa using hx)

/-! ### Non-negativity of the envelope-path candidate offset -/

/-- Claim C9: the envelope correlation path searches only non-negative
lags: the winning index of the valid-mode NCC curve is a natural
number, and even after parabolic refinement the candidate offset
`(idx + frac) / sr` is never negative (at an interior peak the
refinement is at least `-1/2` while the index is at least 1; at a
boundary peak the refinement is 0).  Consequently a negative fused
estimate can only come from the GCC-PHAT fallback — whose delay can
indeed be negative, as the concrete curve in the last conjunct
shows. -/
theorem envelope_lag_nonneg (c : List ℚ) (sr tau score thresh : ℚ)
    (hc : c ≠ []) (hsr : 0 < sr) :
    0 ≤ nccOffOf c sr ∧
    (fusedOffset (nccOffOf c sr) tau score thresh < 0 →
      fusedOffset (nccOffOf c sr) tau score thresh = tau) ∧
    gccPhatCore [0, 0, 5, 0] 4 1 16000 none < 0 := by
  have hnonneg : 0 ≤ nccOffOf c sr := by
    unfold nccOffOf
    by_cases h0 : nccIdx c = 0
    · rw [h0, parabolicInterpolation.eq_def, if_pos (Or.inl rfl)]
      norm_num
    · by_cases hb : c.length - 1 ≤ nccIdx c
      · rw [parabolicInterpolation.eq_def, if_pos (Or.inr hb)]
        have : (0 : ℚ) ≤ (nccIdx c : ℚ) := Nat.cast_nonneg _
        apply div_nonneg (by linarith) (le_of_lt hsr)
      · have hidx : 1 ≤ nccIdx c := Nat.one_le_iff_ne_zero.mpr h0
        have hlen1 : 1 ≤ c.length := List.length_pos.mpr hc
        have hlen : nccIdx c + 1 < c.length := by omega
        have hem : nccIdx c = (argmaxAux c).1 := rfl
        have hβ : c.getD (nccIdx c) 0 = (argmaxAux c).2 := argmaxAux_getD c hc
        have hα : c.getD (nccIdx c - 1) 0 < c.getD (nccIdx c) 0 := by
          rw [hβ]
          exact argmaxAux_lt_of_lt c (nccIdx c - 1) (by omega)
        have hγ : c.getD (nccIdx c + 1) 0 ≤ c.getD (nccIdx c) 0 := by
          rw [hβ]
          exact argmaxAux_le c (nccIdx c + 1) hlen
        have hpara : parabolicInterpolation c (nccIdx c) =
            (1 / 2) * (c.getD (nccIdx c - 1) 0 - c.getD (nccIdx c + 1) 0) /
              (c.getD (nccIdx c - 1) 0 - 2 * c.getD (nccIdx c) 0 +
                c.getD (nccIdx c + 1) 0) := by
          rw [parabolicInterpolation.eq_def,
            if_neg (by push_neg; exact ⟨h0, by omega⟩)]
        have hd : c.getD (nccIdx c - 1) 0 - 2 * c.getD (nccIdx c) 0 +
            c.getD (nccIdx c + 1) 0 < 0 := by linarith
        have hfrac : -(1 / 2) ≤
            (1 / 2) * (c.getD (nccIdx c - 1) 0 - c.getD (nccIdx c + 1) 0) /
              (c.getD (nccIdx c - 1) 0 - 2 * c.getD (nccIdx c) 0 +
                c.getD (nccIdx c + 1) 0) := by
          rw [le_div_iff_of_neg hd]
          linarith
        have hcast : (1 : ℚ) ≤ (nccIdx c : ℚ) := by exact_mod_cast hidx
        rw [hpara]
        apply div_nonneg (by linarith) (le_of_lt hsr)
  refine ⟨hnonneg, ?_, by
    norm_num [gccPhatCore, gccMaxShift, gccCentered, pySliceLast,
      listArgmax, argmaxAux]⟩
  intro hneg
  unfold fusedOffset at hneg ⊢
  by_cases h : thresh ≤ score
  · rw [if_pos h] at hneg
    linarith
  · exact if_neg h

/-- Witness for `envelope_lag_nonneg` at a concrete curve. -/
theorem envelope_lag_nonneg_witness :
    0 ≤ nccOffOf [0, 1, 5, 1, 0] 16000 ∧
    (fusedOffset (nccOffOf [0, 1, 5, 1, 0] 16000) (-1) 0 (7 / 10) < 0 →
      fusedOffset (nccOffOf [0, 1, 5, 1, 0] 16000) (-1) 0 (7 / 10) = -1) ∧
    gccPhatCore [0, 0, 5, 0] 4 1 16000 none < 0 :=
  envelope_lag_nonneg [0, 1, 5, 1, 0] 16000 (-1) 0 (7 / 10)
    (by simp) (by norm_num)

/-! ### The exact square-root model is correct on squares -/

theorem qSqrt_mul_self (a : ℚ) (ha : 0 ≤ a) : qSqrt (a * a) = a := by
  have hnum : (a * a).num = a.num * a.num := Rat.mul_self_num a
  have hden : (a * a).den = a.den * a.den := Rat.mul_self_den a
  have hna : 0 ≤ a.num := Rat.num_nonneg.mpr ha
  have htn : (a * a).num.toNat = a.num.toNat * a.num.toNat := by
    rw [hnum]
    have hc := Int.toNat_of_nonneg hna
    calc (a.num * a.num).toNat
        = ((a.num.toNat : ℤ) * (a.num.toNat : ℤ)).toNat := by rw [hc]
      _ = a.num.toNat * a.num.toNat := by rw [← Nat.cast_mul, Int.toNat_natCast]
  have hcond : 0 ≤ (a * a).num ∧
      (a * a).num.toNat.sqrt * (a * a).num.toNat.sqrt = (a * a).num.toNat ∧
      (a * a).den.sqrt * (a * a).den.sqrt = (a * a).den := by
    refine ⟨by rw [hnum]; positivity, ?_, ?_⟩
    · rw [htn, Nat.sqrt_eq]
    · rw [hden, Nat.sqrt_eq]
  unfold qSqrt
  rw [if_pos hcond, htn, hden, Nat.sqrt_eq, Nat.sqrt_eq]
  have hcast : ((a.num.toNat : ℕ) : ℚ) = (a.num : ℚ) := by
    exact_mod_cast Int.toNat_of_nonneg hna
  rw [hcast, Rat.num_div_den]

/-! ### Scale invariance of the peak-picking stage -/

theorem pySliceLast_map (f : ℚ → ℚ) (l : List ℚ) (k : ℕ) :
    pySliceLast (l.map f) k = (pySliceLast l k).map f := by
  unfold pySliceLast
  by_cases h : k = 0
  · simp [h]
  · rw [if_neg h, if_neg h, List.length_map, List.map_drop]

theorem gccCentered_map (f : ℚ → ℚ) (cc : List ℚ) (ms : ℕ) :
    gccCentered (cc.map f) ms = (gccCentered cc ms).map f := by
  unfold gccCentered
  rw [pySliceLast_map, ← List.map_take, ← List.map_append]

/-- Claim C8 as amended: the reported lag is invariant under a uniform
positive scaling of the correlation curve itself (scaling commutes
with centring, truncation and the first argmax of absolute values).
Scaling an input waveform, however, scales the curve only up to the
epsilon regularisers, which is why the claim as stated fails (see the
counterexample). -/
theorem gccPhatCore_scale_invariant (cc : List ℚ) (n interp : ℕ)
    (sr k : ℚ) (maxTau : Option ℚ) (hk : 0 < k) :
    gccPhatCore (cc.map (fun q => k * q)) n interp sr maxTau =
      gccPhatCore cc n interp sr maxTau := by
  simp only [gccPhatCore]
  rw [gccCentered_map]
  have habs : ((gccCentered cc (gccMaxShift n interp sr maxTau)).map
        (fun q => k * q)).map (fun q => |q|) =
      ((gccCentered cc (gccMaxShift n interp sr maxTau)).map
        (fun q => |q|)).map (fun q => k * q) := by
    simp only [List.map_map]
    apply List.map_congr_left
    intro x _
    simp only [Function.comp_apply]
    rw [abs_mul, abs_of_pos hk]
  rw [habs, listArgmax_map_mul k hk]

/-- Witness for `gccPhatCore_scale_invariant` at a concrete curve. -/
theorem gccPhatCore_scale_invariant_witness :
    gccPhatCore ([0, 0, 5, 0].map (fun q => 2 * q)) 4 1 16000 none =
      gccPhatCore [0, 0, 5, 0] 4 1 16000 none :=
  gccPhatCore_scale_invariant [0, 0, 5, 0] 4 1 16000 2 none (by norm_num)

/-- Counterexample to claim C8 as stated: scaling the template input of
`gcc_phat` by the positive constant `k = 2⁻⁶⁰` changes the reported
lag from `1/16000` s to `0` s.  The epsilon term of the PHAT
normalisation `R /= |R| + eps` weights the three frequency bins of
this size-4 example non-uniformly once the bin magnitudes are
comparable to machine epsilon, which moves the argmax of the
correlation curve.  (All square roots arising here are of
perfect-square rationals, so `qSqrt` evaluates them exactly.) -/
theorem gccPhat_scaling_changes_lag_cex :
    (0 : ℚ) < 1 / 1152921504606846976 ∧
    gccPhat4 qSqrt [3, 4] [4, 3] 16000 none = 1 / 16000 ∧
    gccPhat4 qSqrt [3 * (1 / 1152921504606846976),
      4 * (1 / 1152921504606846976)] [4, 3] 16000 none = 0 ∧
    ((1 : ℚ) / 16000) ≠ 0 := by
  have e1 : qSqrt 2401 = 49 := by
    rw [show (2401 : ℚ) = 49 * 49 from by norm_num]
    exact qSqrt_mul_self 49 (by norm_num)
  have e2 : qSqrt 625 = 25 := by
    rw [show (625 : ℚ) = 25 * 25 from by norm_num]
    exact qSqrt_mul_self 25 (by norm_num)
  have e3 : qSqrt 1 = 1 := by
    have h := qSqrt_mul_self 1 (by norm_num)
    simpa using h
  have e4 : qSqrt (2401 / 1329227995784915872903807060280344576) =
      49 / 1152921504606846976 := by
    rw [show (2401 / 1329227995784915872903807060280344576 : ℚ) =
      (49 / 1152921504606846976) * (49 / 1152921504606846976) from by norm_num]
    exact qSqrt_mul_self _ (by norm_num)
  have e5 : qSqrt (625 / 1329227995784915872903807060280344576) =
      25 / 1152921504606846976 := by
    rw [show (625 / 1329227995784915872903807060280344576 : ℚ) =
      (25 / 1152921504606846976) * (25 / 1152921504606846976) from by norm_num]
    exact qSqrt_mul_self _ (by norm_num)
  have e6 : qSqrt (1 / 1329227995784915872903807060280344576) =
      1 / 1152921504606846976 := by
    rw [show (1 / 1329227995784915872903807060280344576 : ℚ) =
      (1 / 1152921504606846976) * (1 / 1152921504606846976) from by norm_num]
    exact qSqrt_mul_self _ (by norm_num)
  have hcc : irfft4 ((List.zipWith (fun X Y => CQ.mul X (CQ.conj Y))
        (rfft4 [3, 4]) (rfft4 [4, 3])).map
      (fun z => CQ.scale (1 / (qSqrt z.normSq + machineEps)) z)) =
      [53710185171910700498154060888826890611272735260672 /
          111896219108147281021819695148360637169858808643585,
        71613580229214253376574273872753197081727390973952 /
          111896219108147281021819695148360637169858808643585,
        -(53710185171910688328708298697824528156530906759168 /
          111896219108147281021819695148360637169858808643585),
        40282638878933014968739418993313199941117995384832 /
          111896219108147281021819695148360637169858808643585] := by
    norm_num [rfft4, irfft4, CQ.mul, CQ.conj, CQ.normSq, CQ.scale,
      machineEps, e1, e2, e3]
  have habs0 : |(53710185171910700498154060888826890611272735260672 /
      111896219108147281021819695148360637169858808643585 : ℚ)| =
      53710185171910700498154060888826890611272735260672 /
      111896219108147281021819695148360637169858808643585 :=
    abs_of_nonneg (by positivity)
  have habs1 : |(71613580229214253376574273872753197081727390973952 /
      111896219108147281021819695148360637169858808643585 : ℚ)| =
      71613580229214253376574273872753197081727390973952 /
      111896219108147281021819695148360637169858808643585 :=
    abs_of_nonneg (by positivity)
  have habs2 : |(-(53710185171910688328708298697824528156530906759168 /
      111896219108147281021819695148360637169858808643585) : ℚ)| =
      53710185171910688328708298697824528156530906759168 /
      111896219108147281021819695148360637169858808643585 := by
    rw [abs_neg]
    exact abs_of_nonneg (by positivity)
  have habs3 : |(40282638878933014968739418993313199941117995384832 /
      111896219108147281021819695148360637169858808643585 : ℚ)| =
      40282638878933014968739418993313199941117995384832 /
      111896219108147281021819695148360637169858808643585 :=
    abs_of_nonneg (by positivity)
  have hccs : irfft4 ((List.zipWith (fun X Y => CQ.mul X (CQ.conj Y))
        (rfft4 [3 * (1 / 1152921504606846976), 4 * (1 / 1152921504606846976)])
        (rfft4 [4, 3])).map
      (fun z => CQ.scale (1 / (qSqrt z.normSq + machineEps)) z)) =
      [1803852 / 22026185, 1180432 / 22026185,
        -(77388 / 22026185), 631737 / 22026185] := by
    norm_num [rfft4, irfft4, CQ.mul, CQ.conj, CQ.normSq, CQ.scale,
      machineEps, e4, e5, e6]
  have hsabs0 : |(1803852 / 22026185 : ℚ)| = 1803852 / 22026185 :=
    abs_of_nonneg (by positivity)
  have hsabs1 : |(1180432 / 22026185 : ℚ)| = 1180432 / 22026185 :=
    abs_of_nonneg (by positivity)
  have hsabs2 : |(-(77388 / 22026185) : ℚ)| = 77388 / 22026185 := by
    rw [abs_neg]
    exact abs_of_nonneg (by positivity)
  have hsabs3 : |(631737 / 22026185 : ℚ)| = 631737 / 22026185 :=
    abs_of_nonneg (by positivity)
  refine ⟨by norm_num, ?_, ?_, by norm_num⟩
  · rw [gccPhat4.eq_def]
    simp only [hcc, List.length_cons, List.length_nil]
    norm_num [gccPhatCore, gccMaxShift, gccCentered, pySliceLast,
      listArgmax, argmaxAux, habs0, habs1, habs2, habs3]
  · rw [gccPhat4.eq_def]
    simp only [hccs, List.length_cons, List.length_nil]
    norm_num [gccPhatCore, gccMaxShift, gccCentered, pySliceLast,
      listArgmax, argmaxAux, hsabs0, hsabs1, hsabs2, hsabs3]

/-- Claim C5 as amended: provided the truncation width
`int(interp * max_tau * sr)` is at least 1 — which holds whenever
`max_tau ≥ 1/(interp·sr)` — the delay returned by the peak-picking
stage of `gcc_phat` is the first index maximising the absolute value
of the centred, truncated correlation curve, shifted by `max_shift`
and divided by `interp * sr`, and its absolute value never exceeds
`max_tau`.  When `int(interp * max_tau * sr) = 0`, the Python slice
`cc[-0:]` degenerates to the whole curve and the bound can fail (see
the counterexample). -/
theorem gccPhatCore_argmax_and_maxTau (cc : List ℚ) (n interp : ℕ)
    (sr mt : ℚ) (hlen : cc.length = interp * n) (h2 : 2 ≤ interp * n)
    (ht : 1 ≤ pyInt ((interp : ℚ) * mt * sr))
    (hsr : 0 < sr) (hip : 0 < interp) :
    (∀ j < ((gccCentered cc (gccMaxShift n interp sr (some mt))).map
        (fun q => |q|)).length,
      ((gccCentered cc (gccMaxShift n interp sr (some mt))).map
        (fun q => |q|)).getD j 0 ≤
      ((gccCentered cc (gccMaxShift n interp sr (some mt))).map
        (fun q => |q|)).getD
        (listArgmax ((gccCentered cc (gccMaxShift n interp sr (some mt))).map
          (fun q => |q|))) 0) ∧
    gccPhatCore cc n interp sr (some mt) =
      (((listArgmax ((gccCentered cc (gccMaxShift n interp sr (some mt))).map
          (fun q => |q|)) : ℤ) -
        (gccMaxShift n interp sr (some mt) : ℤ) : ℤ) : ℚ) /
        ((interp : ℚ) * sr) ∧
    |gccPhatCore cc n interp sr (some mt)| ≤ mt := by
  set q : ℚ := (interp : ℚ) * mt * sr with hqdef
  set ms := gccMaxShift n interp sr (some mt) with hmsdef
  set A := (gccCentered cc ms).map (fun q => |q|) with hAdef
  have hq0 : 0 ≤ q := by
    by_contra hneg
    push_neg at hneg
    have hceil : pyInt q = ⌈q⌉ := if_pos hneg
    rw [hceil] at ht
    have : ⌈q⌉ ≤ 0 := Int.ceil_le.mpr (by exact_mod_cast le_of_lt hneg)
    omega
  have hpy : pyInt q = ⌊q⌋ := if_neg (not_lt.mpr hq0)
  have hts : (1 : ℤ) ≤ ⌊q⌋ := by rw [hpy] at ht; exact ht
  have hms_eq : ms = min (pyInt q).toNat (interp * n / 2) := rfl
  have hd1 : 1 ≤ interp * n / 2 := (Nat.one_le_div_iff (by norm_num)).mpr h2
  have hms1 : 1 ≤ ms := by
    rw [hms_eq, hpy]
    exact le_min (by omega) hd1
  have hmsle : ms ≤ interp * n / 2 := by
    rw [hms_eq]
    exact min_le_right _ _
  have hmsfloor : (ms : ℤ) ≤ ⌊q⌋ := by
    have h := min_le_left (pyInt q).toNat (interp * n / 2)
    rw [← hms_eq] at h
    rw [hpy] at h
    omega
  have hdd : interp * n / 2 * 2 ≤ interp * n := Nat.div_mul_le_self _ _
  have hmslen : ms ≤ cc.length := by rw [hlen]; omega
  have hms1len : ms + 1 ≤ cc.length := by rw [hlen]; omega
  have hlenA : A.length = 2 * ms + 1 := by
    rw [hAdef]
    simp only [List.length_map, gccCentered, List.length_append,
      List.length_take]
    rw [pySliceLast, if_neg (by omega : ¬ ms = 0)]
    simp only [List.length_drop]
    omega
  have hAne : A ≠ [] := by
    intro hnil
    rw [hnil] at hlenA
    simp at hlenA
  have hilt : listArgmax A < A.length := argmaxAux_fst_lt A hAne
  have hmax : ∀ j < A.length, A.getD j 0 ≤ A.getD (listArgmax A) 0 := by
    intro j hj
    rw [show A.getD (listArgmax A) 0 = (argmaxAux A).2 from argmaxAux_getD A hAne]
    exact argmaxAux_le A j hj
  have hval : gccPhatCore cc n interp sr (some mt) =
      (((listArgmax A : ℤ) - (ms : ℤ) : ℤ) : ℚ) / ((interp : ℚ) * sr) := rfl
  refine ⟨hmax, hval, ?_⟩
  have hnumz : |(listArgmax A : ℤ) - (ms : ℤ)| ≤ (ms : ℤ) := by
    rw [abs_le]
    omega
  have hnum : |(((listArgmax A : ℤ) - (ms : ℤ) : ℤ) : ℚ)| ≤ ((ms : ℕ) : ℚ) := by
    exact_mod_cast hnumz
  have hfl : ((ms : ℕ) : ℚ) ≤ q := by
    have h1 : (((ms : ℕ) : ℤ) : ℚ) ≤ ((⌊q⌋ : ℤ) : ℚ) := by exact_mod_cast hmsfloor
    calc ((ms : ℕ) : ℚ) = (((ms : ℕ) : ℤ) : ℚ) := by norm_cast
      _ ≤ ((⌊q⌋ : ℤ) : ℚ) := h1
      _ ≤ q := Int.floor_le q
  have hpos : (0 : ℚ) < (interp : ℚ) * sr :=
    mul_pos (by exact_mod_cast hip) hsr
  rw [hval, abs_div, abs_of_pos hpos, div_le_iff₀ hpos]
  calc |(((listArgmax A : ℤ) - (ms : ℤ) : ℤ) : ℚ)|
      ≤ ((ms : ℕ) : ℚ) := hnum
    _ ≤ q := hfl
    _ = mt * ((interp : ℚ) * sr) := by rw [hqdef]; ring

/-- Witness for `gccPhatCore_argmax_and_maxTau` at a concrete curve. -/
theorem gccPhatCore_argmax_and_maxTau_witness :
    (∀ j < ((gccCentered [1, 2, 3, 4]
        (gccMaxShift 4 1 16000 (some (1 / 8000)))).map
        (fun q => |q|)).length,
      ((gccCentered [1, 2, 3, 4]
        (gccMaxShift 4 1 16000 (some (1 / 8000)))).map
        (fun q => |q|)).getD j 0 ≤
      ((gccCentered [1, 2, 3, 4]
        (gccMaxShift 4 1 16000 (some (1 / 8000)))).map
        (fun q => |q|)).getD
        (listArgmax ((gccCentered [1, 2, 3, 4]
          (gccMaxShift 4 1 16000 (some (1 / 8000)))).map
          (fun q => |q|))) 0) ∧
    gccPhatCore [1, 2, 3, 4] 4 1 16000 (some (1 / 8000)) =
      (((listArgmax ((gccCentered [1, 2, 3, 4]
          (gccMaxShift 4 1 16000 (some (1 / 8000)))).map
          (fun q => |q|)) : ℤ) -
        (gccMaxShift 4 1 16000 (some (1 / 8000)) : ℤ) : ℤ) : ℚ) /
        (((1 : ℕ) : ℚ) * 16000) ∧
    |gccPhatCore [1, 2, 3, 4] 4 1 16000 (some (1 / 8000))| ≤ 1 / 8000 := by
  have h := gccPhatCore_argmax_and_maxTau [1, 2, 3, 4] 4 1 16000 (1 / 8000)
    (by norm_num) (by norm_num)
    (by
      have harg : ((1 : ℕ) : ℚ) * (1 / 8000) * 16000 = 2 := by norm_num
      rw [harg, pyInt, if_neg (by norm_num),
        show ((2 : ℚ)) = ((2 : ℤ) : ℚ) from by norm_num, Int.floor_intCast]
      norm_num)
    (by norm_num) (by norm_num)
  exact h

/-- Counterexample to claim C5 as stated: with `max_tau = 1/32000` s at
`sr = 16000` Hz and `interp = 1`, `int(interp * max_tau * sr)` is
`int(0.5) = 0`, so `max_shift = 0` and the Python slice `cc[-0:]`
yields the entire correlation curve rather than a symmetric window
around zero lag: on the concrete inputs `x = [3, 4]`, `y = [4, 3]` the
returned delay is `1/16000` s, whose absolute value exceeds
`max_tau = 1/32000` s. -/
theorem gccPhat_maxTau_violated_cex :
    gccPhat4 qSqrt [3, 4] [4, 3] 16000 (some (1 / 32000)) = 1 / 16000 ∧
    ¬(|(1 : ℚ) / 16000| ≤ 1 / 32000) := by
  have e1 : qSqrt 2401 = 49 := by
    rw [show (2401 : ℚ) = 49 * 49 from by norm_num]
    exact qSqrt_mul_self 49 (by norm_num)
  have e2 : qSqrt 625 = 25 := by
    rw [show (625 : ℚ) = 25 * 25 from by norm_num]
    exact qSqrt_mul_self 25 (by norm_num)
  have e3 : qSqrt 1 = 1 := by
    have h := qSqrt_mul_self 1 (by norm_num)
    simpa using h
  have hcc : irfft4 ((List.zipWith (fun X Y => CQ.mul X (CQ.conj Y))
        (rfft4 [3, 4]) (rfft4 [4, 3])).map
      (fun z => CQ.scale (1 / (qSqrt z.normSq + machineEps)) z)) =
      [53710185171910700498154060888826890611272735260672 /
          111896219108147281021819695148360637169858808643585,
        71613580229214253376574273872753197081727390973952 /
          111896219108147281021819695148360637169858808643585,
        -(53710185171910688328708298697824528156530906759168 /
          111896219108147281021819695148360637169858808643585),
        40282638878933014968739418993313199941117995384832 /
          111896219108147281021819695148360637169858808643585] := by
    norm_num [rfft4, irfft4, CQ.mul, CQ.conj, CQ.normSq, CQ.scale,
      machineEps, e1, e2, e3]
  have habs0 : |(53710185171910700498154060888826890611272735260672 /
      111896219108147281021819695148360637169858808643585 : ℚ)| =
      53710185171910700498154060888826890611272735260672 /
      111896219108147281021819695148360637169858808643585 :=
    abs_of_nonneg (by positivity)
  have habs1 : |(71613580229214253376574273872753197081727390973952 /
      111896219108147281021819695148360637169858808643585 : ℚ)| =
      71613580229214253376574273872753197081727390973952 /
      111896219108147281021819695148360637169858808643585 :=
    abs_of_nonneg (by positivity)
  have habs2 : |(-(53710185171910688328708298697824528156530906759168 /
      111896219108147281021819695148360637169858808643585) : ℚ)| =
      53710185171910688328708298697824528156530906759168 /
      111896219108147281021819695148360637169858808643585 := by
    rw [abs_neg]
    exact abs_of_nonneg (by positivity)
  have habs3 : |(40282638878933014968739418993313199941117995384832 /
      111896219108147281021819695148360637169858808643585 : ℚ)| =
      40282638878933014968739418993313199941117995384832 /
      111896219108147281021819695148360637169858808643585 :=
    abs_of_nonneg (by positivity)
  have hpy : pyInt (1 / 2) = 0 := by
    rw [pyInt, if_neg (by norm_num), Int.floor_eq_zero_iff]
    constructor <;> norm_num
  constructor
  · rw [gccPhat4.eq_def]
    simp only [hcc, List.length_cons, List.length_nil]
    norm_num [gccPhatCore, gccMaxShift, gccCentered, pySliceLast,
      listArgmax, argmaxAux, habs0, habs1, habs2, habs3, hpy]
  · rw [abs_of_nonneg (by norm_num : (0 : ℚ) ≤ 1 / 16000)]
    norm_num

end VidSync
